import Mathlib

/-!
Verification of the sentence-aware text chunker from
`src/rag_from_scratch/core/text_splitter.py`.

Strings are modelled as `List Char`; the Python abbreviation set is modelled
as a list of such strings (membership tests use `any`, as the source does).
-/

namespace RagChunker

/-- Whitespace characters matched by the regular-expression class `\s`
(and stripped by `str.strip`) for ASCII text. -/
def isPySpace (c : Char) : Bool :=
  c == ' ' || c == '\t' || c == '\n' || c == '\r' || c == Char.ofNat 11 || c == Char.ofNat 12

/-- The sentence-terminating punctuation characters of the splitting
regular expression `[.!?]+`. -/
def punctChar (c : Char) : Bool :=
  c == '.' || c == '!' || c == '?'

/-- ASCII uppercase letters, the class `[A-Z]`. -/
def isUpperAZ (c : Char) : Bool :=
  'A' ≤ c && c ≤ 'Z'

/-- The lookahead `(?=\s+[A-Z]|\s*$)` of the splitting regular expression,
tested against the text following a punctuation run: it succeeds when the
rest is all whitespace (possibly none) to the end of the string, or when a
nonempty whitespace run is followed by an ASCII uppercase letter. -/
def lookaheadOk (rest : List Char) : Bool :=
  match rest.dropWhile isPySpace with
  | [] => true
  | c :: _ => isUpperAZ c && !(rest.takeWhile isPySpace).isEmpty

/-- Function `normalize_whitespace`: `re.sub(r"\s+", " ", text)` — every maximal run
of whitespace characters is replaced by a single ASCII space. -/
def normalize_whitespace : List Char → List Char
  | [] => []
  | [c] => if isPySpace c then [' '] else [c]
  | c :: d :: rest =>
    if isPySpace c then
      if isPySpace d then normalize_whitespace (d :: rest)
      else ' ' :: normalize_whitespace (d :: rest)
    else c :: normalize_whitespace (d :: rest)

/-- Scanner for `re.split(r"([.!?]+(?=\s+[A-Z]|\s*$))", text)`.
`seg` is the current uncaptured segment (reversed) and `run` the punctuation
run currently being read (reversed).  A maximal run `[.!?]+` is captured as
its own element exactly when the lookahead holds at the run's end; otherwise
the run is folded back into the surrounding segment.  (Backtracking inside
the run can never make the lookahead succeed earlier, because every proper
prefix of the run is followed by a punctuation character, which is neither
whitespace nor the end of the string.) -/
def splitGo : List Char → List Char → List Char → List (List Char)
  | [], seg, run =>
    if run.isEmpty then [seg.reverse] else [seg.reverse, run.reverse, []]
  | c :: rest, seg, run =>
    if punctChar c then splitGo rest seg (c :: run)
    else
      if run.isEmpty then splitGo rest (c :: seg) []
      else
        if lookaheadOk (c :: rest) then
          seg.reverse :: run.reverse :: splitGo rest [c] []
        else
          splitGo rest (c :: (run ++ seg)) []

/-- Function `split_into_potential_sentences`:
`re.split(r"([.!?]+(?=\s+[A-Z]|\s*$))", text)`. -/
def split_into_potential_sentences (text : List Char) : List (List Char) :=
  splitGo text [] []

/-- Python `str.strip()`: remove leading and trailing whitespace. -/
def strip (l : List Char) : List Char :=
  ((l.dropWhile isPySpace).reverse.dropWhile isPySpace).reverse

/-- Python `str.lower()` for ASCII text. -/
def lowerAscii (l : List Char) : List Char :=
  l.map Char.toLower

/-- Function `is_abbreviation_end`: `any(text.lower().endswith(abbr) for abbr in abbreviations)`. -/
def is_abbreviation_end (text : List Char) (abbreviations : List (List Char)) : Bool :=
  abbreviations.any (fun abbr => abbr.isSuffixOf (lowerAscii text))

/-- The pair loop of `reconstruct_sentences`
(`for i in range(0, len(potential_sentences) - 1, 2)`): consumes the input
two elements at a time, returning the emitted sentences and the final
accumulation buffer `current_sentence`. -/
def reconLoop (abbreviations : List (List Char)) :
    List (List Char) → List (List Char) → List Char → List (List Char) × List Char
  | a :: b :: rest, sentences, current =>
    let part := strip a
    if is_abbreviation_end (part ++ b) abbreviations then
      reconLoop abbreviations rest sentences (current ++ part ++ b ++ [' '])
    else
      reconLoop abbreviations rest (sentences ++ [strip (current ++ part ++ b)]) []
  | _, sentences, current => (sentences, current)

/-- Function `reconstruct_sentences`: run the pair loop, then handle remaining text —
`if current_sentence or (len(potential_sentences) % 2 == 1 and
potential_sentences[-1].strip()): sentences.append((current_sentence +
potential_sentences[-1]).strip())`. -/
def reconstruct_sentences
    (potential_sentences : List (List Char)) (abbreviations : List (List Char)) :
    List (List Char) :=
  let r := reconLoop abbreviations potential_sentences [] []
  let lastElem := potential_sentences.getLastD []
  if !r.2.isEmpty ||
      (potential_sentences.length % 2 == 1 && !(strip lastElem).isEmpty) then
    r.1 ++ [strip (r.2 ++ lastElem)]
  else
    r.1

/-- Python `" ".join`. -/
def joinSp : List (List Char) → List Char
  | [] => []
  | [s] => s
  | s :: rest => s ++ ' ' :: joinSp rest

/-- One iteration of the `create_chunks` loop on state
`(chunks, current_chunk, current_size)`. -/
def chunkStep (chunk_size : Nat) (st : List (List Char) × List (List Char) × Nat)
    (sentence : List Char) : List (List Char) × List (List Char) × Nat :=
  let s := strip sentence
  if s.isEmpty then st
  else if st.2.2 + s.length > chunk_size && !st.2.1.isEmpty then
    (st.1 ++ [joinSp st.2.1], [s], s.length)
  else
    (st.1, st.2.1 ++ [s], st.2.2 + s.length + 1)

/-- Function `create_chunks`: fold the loop over the sentences, then flush the last
chunk if it exists. -/
def create_chunks (sentences : List (List Char)) (chunk_size : Nat) : List (List Char) :=
  let st := sentences.foldl (chunkStep chunk_size) ([], [], 0)
  if st.2.1.isEmpty then st.1 else st.1 ++ [joinSp st.2.1]

/-- Same loop as `chunkStep` but recording each chunk as its list of
constituent sentences instead of the joined string. -/
def groupStep (chunk_size : Nat) (st : List (List (List Char)) × List (List Char) × Nat)
    (sentence : List Char) : List (List (List Char)) × List (List Char) × Nat :=
  let s := strip sentence
  if s.isEmpty then st
  else if st.2.2 + s.length > chunk_size && !st.2.1.isEmpty then
    (st.1 ++ [st.2.1], [s], s.length)
  else
    (st.1, st.2.1 ++ [s], st.2.2 + s.length + 1)

/-- The chunks of `create_chunks`, each given as its list of constituent
sentences (before joining with spaces). -/
def chunkGroups (sentences : List (List Char)) (chunk_size : Nat) :
    List (List (List Char)) :=
  let st := sentences.foldl (groupStep chunk_size) ([], [], 0)
  if st.2.1.isEmpty then st.1 else st.1 ++ [st.2.1]

/-- Modelled from the spec: the module `abbreviations` providing
`get_common_abbreviations` is not present under the sources; per the
specification the Abbreviation Set is a fixed set of lowercase strings
each ending in a period, e.g. "mr.", "dr.", "etc.", "e.g.". -/
def get_common_abbreviations : List (List Char) :=
  ["mr.".toList, "dr.".toList, "etc.".toList, "e.g.".toList]

/-- Function `split_text`: normalize, split, reconstruct, chunk. -/
def split_text (text : List Char) (chunk_size : Nat) : List (List Char) :=
  create_chunks
    (reconstruct_sentences
      (split_into_potential_sentences (normalize_whitespace text))
      get_common_abbreviations)
    chunk_size

/-- Concatenation of a list of lists. -/
def concatAll {α : Type} (l : List (List α)) : List α :=
  l.foldr (· ++ ·) []

/-- Python `chunk.split(" ")`: split at every single space character,
keeping empty fragments. -/
def splitOnSpace : List Char → List (List Char)
  | [] => [[]]
  | c :: rest =>
    if c == ' ' then [] :: splitOnSpace rest
    else
      match splitOnSpace rest with
      | [] => [[c]]
      | s :: ss => (c :: s) :: ss

/-- The pair loop as the spec's words describe it (C1): the abbreviation
test is applied to the lowercase form of the whole accumulated span —
accumulation buffer + this text + punctuation — rather than to the current
fragment alone.  Identical to `reconLoop` except for the tested string. -/
def reconLoopSpan (abbreviations : List (List Char)) :
    List (List Char) → List (List Char) → List Char → List (List Char) × List Char
  | a :: b :: rest, sentences, current =>
    let part := strip a
    if is_abbreviation_end (current ++ part ++ b) abbreviations then
      reconLoopSpan abbreviations rest sentences (current ++ part ++ b ++ [' '])
    else
      reconLoopSpan abbreviations rest (sentences ++ [strip (current ++ part ++ b)]) []
  | _, sentences, current => (sentences, current)

/-- The Reconstructor as the spec's words describe it (C1), built on the
accumulated-span abbreviation test of `reconLoopSpan`. -/
def reconstruct_sentences_span
    (potential_sentences : List (List Char)) (abbreviations : List (List Char)) :
    List (List Char) :=
  let r := reconLoopSpan abbreviations potential_sentences [] []
  let lastElem := potential_sentences.getLastD []
  if !r.2.isEmpty ||
      (potential_sentences.length % 2 == 1 && !(strip lastElem).isEmpty) then
    r.1 ++ [strip (r.2 ++ lastElem)]
  else
    r.1

/-- The pair loop as the amended claim describes it: the abbreviation test
is applied to the lowercase form of this text + punctuation only — the
current fragment, ignoring the accumulation buffer. -/
def reconLoopFragment (abbreviations : List (List Char)) :
    List (List Char) → List (List Char) → List Char → List (List Char) × List Char
  | a :: b :: rest, sentences, current =>
    let part := strip a
    if is_abbreviation_end (part ++ b) abbreviations then
      reconLoopFragment abbreviations rest sentences (current ++ part ++ b ++ [' '])
    else
      reconLoopFragment abbreviations rest (sentences ++ [strip (current ++ part ++ b)]) []
  | _, sentences, current => (sentences, current)

/-- The Reconstructor as the amended claim describes it, built on the
fragment-only abbreviation test of `reconLoopFragment`. -/
def reconstruct_sentences_fragment
    (potential_sentences : List (List Char)) (abbreviations : List (List Char)) :
    List (List Char) :=
  let r := reconLoopFragment abbreviations potential_sentences [] []
  let lastElem := potential_sentences.getLastD []
  if !r.2.isEmpty ||
      (potential_sentences.length % 2 == 1 && !(strip lastElem).isEmpty) then
    r.1 ++ [strip (r.2 ++ lastElem)]
  else
    r.1

/-- One iteration of the packer as claim C9's words describe it: a non-blank
sentence is appended to a non-empty current chunk exactly when the
space-joined chunk including that sentence has length at most the bound. -/
def exactJoinStep (chunk_size : Nat) (st : List (List Char) × List (List Char))
    (sentence : List Char) : List (List Char) × List (List Char) :=
  let s := strip sentence
  if s.isEmpty then st
  else if !st.2.isEmpty && (joinSp (st.2 ++ [s])).length > chunk_size then
    (st.1 ++ [joinSp st.2], [s])
  else
    (st.1, st.2 ++ [s])

/-- The packer as claim C9's words describe it, built on `exactJoinStep`. -/
def create_chunks_exactJoin (sentences : List (List Char)) (chunk_size : Nat) :
    List (List Char) :=
  let st := sentences.foldl (exactJoinStep chunk_size) ([], [])
  if st.2.isEmpty then st.1 else st.1 ++ [joinSp st.2]

/-- The final flush of `create_chunks`, as a function of the loop state. -/
def finishChunks (st : List (List Char) × List (List Char) × Nat) : List (List Char) :=
  if st.2.1.isEmpty then st.1 else st.1 ++ [joinSp st.2.1]

/-- The final flush of `chunkGroups`, as a function of the loop state. -/
def finishGroups (st : List (List (List Char)) × List (List Char) × Nat) :
    List (List (List Char)) :=
  if st.2.1.isEmpty then st.1 else st.1 ++ [st.2.1]

/-- Size-bound invariant of the packer loop state: every closed chunk of two
or more sentences has joined length at most `chunk_size + 1`, and the open
chunk's joined length is at most the running size (and also bounded when it
has two or more sentences). -/
def ChunkInv (chunk_size : Nat) (st : List (List (List Char)) × List (List Char) × Nat) :
    Prop :=
  (∀ g ∈ st.1, 2 ≤ g.length → (joinSp g).length ≤ chunk_size + 1) ∧
  (st.2.1 ≠ [] →
    (joinSp st.2.1).length ≤ st.2.2 ∧
      (2 ≤ st.2.1.length → (joinSp st.2.1).length ≤ chunk_size + 1))

/-- Exact accounting invariant of the packer loop state: before the first
flush the running size exceeds the open chunk's joined length by one; after
a flush it equals the joined length exactly. -/
def SizeInv (st : List (List (List Char)) × List (List Char) × Nat) : Prop :=
  (st.2.1 = [] → st.1 = [] ∧ st.2.2 = 0) ∧
  (st.2.1 ≠ [] →
    st.2.2 = (joinSp st.2.1).length + (if st.1 = [] then 1 else 0))

/-- Pushing `normalize_whitespace` over a non-whitespace head character. -/
theorem normalize_cons_not_space (c : Char) (l : List Char) (hc : isPySpace c = false) :
    normalize_whitespace (c :: l) = c :: normalize_whitespace l := by
  cases l <;> simp [normalize_whitespace, hc]

/-- C8: the Whitespace Normalizer is idempotent — normalizing twice gives the
same result as normalizing once. -/
theorem c8_normalize_idempotent (s : List Char) :
    normalize_whitespace (normalize_whitespace s) = normalize_whitespace s := by
  induction s with
  | nil => rfl
  | cons c t ih =>
    cases t with
    | nil =>
      by_cases hc : isPySpace c = true
      · simp [normalize_whitespace, hc]
      · simp only [Bool.not_eq_true] at hc
        simp [normalize_whitespace, hc]
    | cons d rest =>
      by_cases hc : isPySpace c = true
      · by_cases hd : isPySpace d = true
        · simpa [normalize_whitespace, hc, hd] using ih
        · simp only [Bool.not_eq_true] at hd
          have hrw : normalize_whitespace (c :: d :: rest) =
              ' ' :: normalize_whitespace (d :: rest) := by
            simp [normalize_whitespace, hc, hd]
          rw [hrw, normalize_cons_not_space d _ hd]
          have hsp : isPySpace ' ' = true := by decide
          have h2 : normalize_whitespace (' ' :: d :: normalize_whitespace rest) =
              ' ' :: normalize_whitespace (d :: normalize_whitespace rest) := by
            simp [normalize_whitespace, hsp, hd]
          rw [h2, ← normalize_cons_not_space d _ hd, ih, normalize_cons_not_space d _ hd]
      · simp only [Bool.not_eq_true] at hc
        rw [normalize_cons_not_space c _ hc, normalize_cons_not_space c _ hc, ih]

/-- C5: splitting then reconstructing the spec's example sentence with an
abbreviation set containing "dr." yields exactly two sentences. -/
theorem c5_abbreviation_suppression :
    reconstruct_sentences
      (split_into_potential_sentences "Dr. Smith went home. He was tired!".toList)
      ["dr.".toList] =
      ["Dr. Smith went home.".toList, "He was tired!".toList] := by decide

/-- C7: `split_text` on the empty string returns no chunks for every chunk
size, and the Reconstructor maps the single-element input containing the
empty string to zero sentences for every abbreviation set. -/
theorem c7_empty_input :
    (∀ chunk_size : Nat, split_text [] chunk_size = []) ∧
    (∀ abbreviations : List (List Char),
        reconstruct_sentences [[]] abbreviations = []) := by
  constructor
  · intro chunk_size
    rfl
  · intro abbreviations
    rfl

/-- The pair loop over an even-length prefix composes: processing
`qs ++ rest` is processing `qs` and then continuing with `rest` from the
resulting state. -/
theorem reconLoop_append (abbrs : List (List Char)) (rest : List (List Char)) :
    ∀ (qs : List (List Char)), qs.length % 2 = 0 → ∀ sents cur,
      reconLoop abbrs (qs ++ rest) sents cur =
        reconLoop abbrs rest (reconLoop abbrs qs sents cur).1
          (reconLoop abbrs qs sents cur).2
  | [], _, sents, cur => rfl
  | [_], h, _, _ => by simp at h
  | x :: y :: qs', h, sents, cur => by
    have h' : qs'.length % 2 = 0 := by
      simp only [List.length_cons] at h
      omega
    simp only [List.cons_append, reconLoop]
    by_cases hc : is_abbreviation_end (strip x ++ y) abbrs = true
    · simp only [hc, if_true]
      exact reconLoop_append abbrs rest qs' h' sents (cur ++ strip x ++ y ++ [' '])
    · simp only [Bool.not_eq_true] at hc
      simp only [hc, Bool.false_eq_true, if_false]
      exact reconLoop_append abbrs rest qs' h' (sents ++ [strip (cur ++ strip x ++ y)]) []

/-- C10: on an even-length input whose final pair is judged an abbreviation,
the final element `b` is used twice — once as the punctuation of the last
pair (entering the accumulation buffer followed by a space) and again as the
`[-1]` leftover element appended to that buffer. -/
theorem c10_last_element_duplicated
    (qs : List (List Char)) (a b : List Char) (abbrs : List (List Char))
    (hq : qs.length % 2 = 0)
    (hab : is_abbreviation_end (strip a ++ b) abbrs = true) :
    reconstruct_sentences (qs ++ [a, b]) abbrs =
      (reconLoop abbrs qs [] []).1 ++
        [strip ((reconLoop abbrs qs [] []).2 ++ strip a ++ b ++ [' '] ++ b)] := by
  have hloop : reconLoop abbrs (qs ++ [a, b]) [] [] =
      ((reconLoop abbrs qs [] []).1,
        (reconLoop abbrs qs [] []).2 ++ strip a ++ b ++ [' ']) := by
    rw [reconLoop_append abbrs [a, b] qs hq [] []]
    simp [reconLoop, hab]
  have hlast : (qs ++ [a, b]).getLastD [] = b := by
    have : qs ++ [a, b] = (qs ++ [a]) ++ [b] := by simp
    rw [this, List.getLastD_concat]
  have hcur : ((reconLoop abbrs qs [] []).2 ++ strip a ++ b ++ [' ']).isEmpty = false := by
    simp [List.isEmpty_iff]
  unfold reconstruct_sentences
  rw [hloop]
  simp only [hcur, Bool.not_false, Bool.true_or, if_true, hlast]

/-- Witness for C10 at the concrete input from the claim:
`reconstruct_sentences(["Hello Dr", "."], {"dr."})` returns
`["Hello Dr. ."]`, the punctuation run appearing twice. -/
theorem c10_witness :
    (reconstruct_sentences ["Hello Dr".toList, ".".toList] ["dr.".toList] =
      (reconLoop ["dr.".toList] [] [] []).1 ++
        [strip ((reconLoop ["dr.".toList] [] [] []).2 ++ strip "Hello Dr".toList ++
          ".".toList ++ [' '] ++ ".".toList)]) ∧
    reconstruct_sentences ["Hello Dr".toList, ".".toList] ["dr.".toList] =
      ["Hello Dr. .".toList] :=
  ⟨c10_last_element_duplicated [] "Hello Dr".toList ".".toList ["dr.".toList]
      (by decide) (by decide),
    by decide⟩

/-- C1 counterexample: with abbreviation set {"a.", "a. b."}, on the
alternating input `["a", ".", "b", ".", "C"]` the code tests only the
current fragment "b." (not the accumulated span "a. b."), so it closes the
sentence where the spec's accumulated-span rule would keep accumulating. -/
theorem c1_counterexample :
    reconstruct_sentences
        ["a".toList, ".".toList, "b".toList, ".".toList, "C".toList]
        ["a.".toList, "a. b.".toList] =
      ["a. b.".toList, "C".toList] ∧
    reconstruct_sentences_span
        ["a".toList, ".".toList, "b".toList, ".".toList, "C".toList]
        ["a.".toList, "a. b.".toList] =
      ["a. b. C".toList] ∧
    reconstruct_sentences
        ["a".toList, ".".toList, "b".toList, ".".toList, "C".toList]
        ["a.".toList, "a. b.".toList] ≠
      reconstruct_sentences_span
        ["a".toList, ".".toList, "b".toList, ".".toList, "C".toList]
        ["a.".toList, "a. b.".toList] := by
  refine ⟨by decide, by decide, by decide⟩

/-- The source's pair loop coincides with the fragment-only loop of the
amended claim. -/
theorem reconLoop_eq_fragment (abbrs : List (List Char)) :
    ∀ (ps : List (List Char)) (sents : List (List Char)) (cur : List Char),
      reconLoop abbrs ps sents cur = reconLoopFragment abbrs ps sents cur
  | [], _, _ => rfl
  | [_], _, _ => rfl
  | x :: y :: ps', sents, cur => by
    simp only [reconLoop, reconLoopFragment]
    by_cases hc : is_abbreviation_end (strip x ++ y) abbrs = true
    · simp only [hc, if_true]
      exact reconLoop_eq_fragment abbrs ps' sents (cur ++ strip x ++ y ++ [' '])
    · simp only [Bool.not_eq_true] at hc
      simp only [hc, Bool.false_eq_true, if_false]
      exact reconLoop_eq_fragment abbrs ps' (sents ++ [strip (cur ++ strip x ++ y)]) []

/-- C1 (amended): the Reconstructor decides abbreviation-vs-sentence-end by
testing the lowercase form of this text + punctuation only — the current
fragment, not the accumulated span. -/
theorem c1_amended_fragment_only
    (ps abbrs : List (List Char)) :
    reconstruct_sentences ps abbrs = reconstruct_sentences_fragment ps abbrs := by
  unfold reconstruct_sentences reconstruct_sentences_fragment
  rw [reconLoop_eq_fragment abbrs ps [] []]

/-- Unfolding of `chunkStep` on an explicit state triple. -/
theorem chunkStep_eq (cs : Nat) (chunks : List (List Char)) (cur : List (List Char))
    (n : Nat) (x : List Char) :
    chunkStep cs (chunks, cur, n) x =
      if (strip x).isEmpty then (chunks, cur, n)
      else if n + (strip x).length > cs && !cur.isEmpty then
        (chunks ++ [joinSp cur], [strip x], (strip x).length)
      else (chunks, cur ++ [strip x], n + (strip x).length + 1) := rfl

/-- Unfolding of `groupStep` on an explicit state triple. -/
theorem groupStep_eq (cs : Nat) (groups : List (List (List Char))) (cur : List (List Char))
    (n : Nat) (x : List Char) :
    groupStep cs (groups, cur, n) x =
      if (strip x).isEmpty then (groups, cur, n)
      else if n + (strip x).length > cs && !cur.isEmpty then
        (groups ++ [cur], [strip x], (strip x).length)
      else (groups, cur ++ [strip x], n + (strip x).length + 1) := rfl

/-- Unfolding `create_chunks` as the final flush of the loop fold. -/
theorem create_chunks_eq_finish (sentences : List (List Char)) (cs : Nat) :
    create_chunks sentences cs =
      finishChunks (sentences.foldl (chunkStep cs) ([], [], 0)) := rfl

/-- Unfolding `chunkGroups` as the final flush of the group-recording loop fold. -/
theorem chunkGroups_eq_finish (sentences : List (List Char)) (cs : Nat) :
    chunkGroups sentences cs =
      finishGroups (sentences.foldl (groupStep cs) ([], [], 0)) := rfl

/-- Joining after appending one more sentence to a non-empty chunk. -/
theorem joinSp_append_singleton :
    ∀ (g : List (List Char)) (s : List Char), g ≠ [] →
      joinSp (g ++ [s]) = joinSp g ++ ' ' :: s
  | [], _, h => absurd rfl h
  | [x], s, _ => by simp [joinSp]
  | x :: y :: g', s, _ => by
    have ih := joinSp_append_singleton (y :: g') s (by simp)
    simp only [List.cons_append] at ih ⊢
    simp [joinSp, ih]

/-- The joined-string loop and the group-recording loop run in lockstep:
the chunks are the space-joins of the groups and the open chunk and running
size coincide. -/
theorem fold_chunks_groups (cs : Nat) :
    ∀ (l : List (List Char)) (chunks : List (List Char))
      (groups : List (List (List Char))) (cur : List (List Char)) (n : Nat),
      chunks = groups.map joinSp →
      (l.foldl (chunkStep cs) (chunks, cur, n)).1 =
          ((l.foldl (groupStep cs) (groups, cur, n)).1).map joinSp ∧
        (l.foldl (chunkStep cs) (chunks, cur, n)).2 =
          (l.foldl (groupStep cs) (groups, cur, n)).2
  | [], chunks, groups, cur, n, h => by simp [h]
  | x :: l', chunks, groups, cur, n, h => by
    simp only [List.foldl_cons, chunkStep_eq, groupStep_eq]
    by_cases he : (strip x).isEmpty = true
    · simp only [he, if_true]
      exact fold_chunks_groups cs l' chunks groups cur n h
    · simp only [he, Bool.false_eq_true, if_false]
      by_cases hc : (n + (strip x).length > cs && !cur.isEmpty) = true
      · simp only [hc, if_true]
        exact fold_chunks_groups cs l' (chunks ++ [joinSp cur]) (groups ++ [cur])
          [strip x] (strip x).length (by simp [h])
      · simp only [hc, Bool.false_eq_true, if_false]
        exact fold_chunks_groups cs l' chunks groups (cur ++ [strip x])
          (n + (strip x).length + 1) h

/-- The chunk strings are exactly the space-joins of the chunk groups. -/
theorem create_chunks_eq_map_groups (sentences : List (List Char)) (cs : Nat) :
    create_chunks sentences cs = (chunkGroups sentences cs).map joinSp := by
  rw [create_chunks_eq_finish, chunkGroups_eq_finish]
  obtain ⟨h1, h2⟩ := fold_chunks_groups cs sentences [] [] [] 0 rfl
  unfold finishChunks finishGroups
  rw [h1, h2]
  by_cases hcur : (sentences.foldl (groupStep cs) ([], [], 0)).2.1.isEmpty = true
  · simp [hcur]
  · simp [hcur]

/-- One packer step preserves the size-bound invariant. -/
theorem chunkInv_step (cs : Nat) (st : List (List (List Char)) × List (List Char) × Nat)
    (x : List Char) (h : ChunkInv cs st) : ChunkInv cs (groupStep cs st x) := by
  obtain ⟨groups, cur, n⟩ := st
  obtain ⟨hclosed, hopen⟩ := h
  rw [groupStep_eq]
  by_cases he : (strip x).isEmpty = true
  · simp only [he, if_true]
    exact ⟨hclosed, hopen⟩
  · simp only [he, Bool.false_eq_true, if_false]
    have hlen : 1 ≤ (strip x).length := by
      cases hsx : strip x with
      | nil => rw [hsx] at he; simp at he
      | cons a t => simp
    by_cases hc : (n + (strip x).length > cs && !cur.isEmpty) = true
    · simp only [hc, if_true]
      rw [Bool.and_eq_true] at hc
      have hcur : cur ≠ [] := by
        intro hnil
        rw [hnil] at hc
        simp at hc
      refine ⟨?_, ?_⟩
      · intro g hg h2
        rcases List.mem_append.1 hg with hg' | hg'
        · exact hclosed g hg' h2
        · have : g = cur := by simpa using hg'
          subst this
          exact (hopen hcur).2 h2
      · intro _
        constructor
        · simp [joinSp]
        · intro h2
          simp at h2
    · simp only [hc, Bool.false_eq_true, if_false]
      refine ⟨hclosed, fun _ => ?_⟩
      by_cases hnil : cur = []
      · subst hnil
        constructor
        · simp only [List.nil_append, joinSp]
          omega
        · intro h2
          simp at h2
      · have hF : cur.isEmpty = false := by
          cases cur
          · exact absurd rfl hnil
          · rfl
        have hj := joinSp_append_singleton cur (strip x) hnil
        have hle : (joinSp cur).length ≤ n := (hopen hnil).1
        have hcs : n + (strip x).length ≤ cs := by
          by_cases hgt : n + (strip x).length > cs
          · exfalso
            apply hc
            simp [hgt, hF]
          · omega
        constructor
        · rw [hj]
          simp only [List.length_append, List.length_cons]
          omega
        · intro _
          rw [hj]
          simp only [List.length_append, List.length_cons]
          omega

/-- The size-bound invariant is preserved by the whole fold. -/
theorem chunkInv_foldl (cs : Nat) :
    ∀ (l : List (List Char)) (st : List (List (List Char)) × List (List Char) × Nat),
      ChunkInv cs st → ChunkInv cs (l.foldl (groupStep cs) st)
  | [], _, h => h
  | x :: l', st, h =>
    chunkInv_foldl cs l' (groupStep cs st x) (chunkInv_step cs st x h)

/-- C2 (amended): every chunk composed of two or more sentences has length
at most the maximum chunk size plus one.  (The exact bound of the claim
fails by one character for chunks begun after a flush, because the running
size is then initialized without the `+1` space convention.) -/
theorem c2_amended_size_bound (sentences : List (List Char)) (chunk_size : Nat)
    (g : List (List Char)) (hg : g ∈ chunkGroups sentences chunk_size)
    (h2 : 2 ≤ g.length) :
    joinSp g ∈ create_chunks sentences chunk_size ∧
      (joinSp g).length ≤ chunk_size + 1 := by
  constructor
  · rw [create_chunks_eq_map_groups]
    exact List.mem_map_of_mem joinSp hg
  · have hinv : ChunkInv chunk_size
        (sentences.foldl (groupStep chunk_size) ([], [], 0)) := by
      apply chunkInv_foldl
      exact ⟨fun g hg' => absurd hg' (List.not_mem_nil g), fun h => absurd rfl h⟩
    rw [chunkGroups_eq_finish] at hg
    set st := sentences.foldl (groupStep chunk_size) ([], [], 0) with hst
    unfold finishGroups at hg
    by_cases hcur : st.2.1.isEmpty = true
    · rw [if_pos hcur] at hg
      exact hinv.1 g hg h2
    · rw [if_neg hcur] at hg
      rcases List.mem_append.1 hg with hg' | hg'
      · exact hinv.1 g hg' h2
      · have : g = st.2.1 := by simpa using hg'
        subst this
        have hne : st.2.1 ≠ [] := by
          intro hnil
          rw [List.isEmpty_iff] at hcur
          exact hcur hnil
        exact (hinv.2 hne).2 h2

/-- Witness for C2 (amended) at a concrete input: the two-sentence chunk
"aa bb" of `create_chunks ["aa", "bb"] 10` has length at most 11. -/
theorem c2_witness :
    joinSp ["aa".toList, "bb".toList] ∈
        create_chunks ["aa".toList, "bb".toList] 10 ∧
      (joinSp ["aa".toList, "bb".toList]).length ≤ 10 + 1 :=
  c2_amended_size_bound ["aa".toList, "bb".toList] 10
    ["aa".toList, "bb".toList] (by decide) (by decide)

/-- C2 counterexample: with maximum 5, `create_chunks ["dddddd", "aaa", "bb"]`
produces the chunk "aaa bb" — two sentences, length 6 > 5 — because after
flushing "dddddd" the running size for "aaa" is initialized to 3 instead of
4, admitting "bb" although the joined chunk exceeds the bound. -/
theorem c2_counterexample :
    create_chunks ["dddddd".toList, "aaa".toList, "bb".toList] 5 =
        ["dddddd".toList, "aaa bb".toList] ∧
      chunkGroups ["dddddd".toList, "aaa".toList, "bb".toList] 5 =
        [["dddddd".toList], ["aaa".toList, "bb".toList]] ∧
      2 ≤ (["aaa".toList, "bb".toList] : List (List Char)).length ∧
      5 < (joinSp ["aaa".toList, "bb".toList]).length := by
  refine ⟨by decide, by decide, by decide, by decide⟩

/-- One packer step preserves the exact accounting invariant. -/
theorem sizeInv_step (cs : Nat) (st : List (List (List Char)) × List (List Char) × Nat)
    (x : List Char) (h : SizeInv st) : SizeInv (groupStep cs st x) := by
  obtain ⟨groups, cur, n⟩ := st
  obtain ⟨hempty, hopen⟩ := h
  rw [groupStep_eq]
  by_cases he : (strip x).isEmpty = true
  · simp only [he, if_true]
    exact ⟨hempty, hopen⟩
  · simp only [he, Bool.false_eq_true, if_false]
    by_cases hc : (n + (strip x).length > cs && !cur.isEmpty) = true
    · simp only [hc, if_true]
      refine ⟨?_, ?_⟩
      · intro hnil
        simp at hnil
      · intro _
        have : groups ++ [cur] ≠ [] := by simp
        simp only [this, if_neg, joinSp]
        simp
    · simp only [hc, Bool.false_eq_true, if_false]
      refine ⟨?_, ?_⟩
      · intro hnil
        simp at hnil
      · intro _
        dsimp only
        by_cases hnil : cur = []
        · subst hnil
          have hg : groups = [] := (hempty rfl).1
          have hn : n = 0 := (hempty rfl).2
          subst hg
          rw [hn]
          simp [joinSp]
        · have hgrow := joinSp_append_singleton cur (strip x) hnil
          have hn : n = (joinSp cur).length + (if groups = [] then 1 else 0) :=
            hopen hnil
          rw [hgrow, hn]
          by_cases hgrp : groups = []
          · simp only [hgrp, if_pos rfl, List.length_append, List.length_cons]
            omega
          · simp only [hgrp, if_neg, List.length_append, List.length_cons]
            omega

/-- The exact accounting invariant is preserved by the whole fold. -/
theorem sizeInv_foldl (cs : Nat) :
    ∀ (l : List (List Char)) (st : List (List (List Char)) × List (List Char) × Nat),
      SizeInv st → SizeInv (l.foldl (groupStep cs) st)
  | [], _, h => h
  | x :: l', st, h =>
    sizeInv_foldl cs l' (groupStep cs st x) (sizeInv_step cs st x h)

/-- C9 (amended): throughout the packer loop the running size equals the
open chunk's joined length plus one while no chunk has been flushed, and
equals the joined length exactly afterwards — so the overflow test
`current_size + sentence_size > chunk_size` compares the prospective joined
chunk's length against the bound exactly for the first chunk, and that
length minus one for chunks begun after a flush. -/
theorem c9_amended_size_accounting (chunk_size : Nat) (sentences : List (List Char)) :
    SizeInv (sentences.foldl (groupStep chunk_size) ([], [], 0)) := by
  apply sizeInv_foldl
  exact ⟨fun _ => ⟨rfl, rfl⟩, fun h => absurd rfl h⟩

/-- Witness for C9 (amended) at a concrete input: after folding `["aa"]`
with bound 5 the state is `([], ["aa"], 3)` and indeed 3 = 2 + 1. -/
theorem c9_witness :
    ((["aa".toList] : List (List Char)).foldl (groupStep 5) ([], [], 0)).2.2 =
      (joinSp ((["aa".toList] : List (List Char)).foldl (groupStep 5) ([], [], 0)).2.1).length +
        (if ((["aa".toList] : List (List Char)).foldl (groupStep 5) ([], [], 0)).1 = []
          then 1 else 0) :=
  (c9_amended_size_accounting 5 ["aa".toList]).2 (by decide)

/-- C9 counterexample: the packer does not append exactly when the joined
chunk fits the bound — after a flush it admits one extra character.  On
`["dddddd", "aaa", "bb"]` with bound 5 the code appends "bb" to ["aaa"]
although "aaa bb" has length 6 > 5, diverging from a packer that tests the
prospective joined length. -/
theorem c9_counterexample :
    create_chunks ["dddddd".toList, "aaa".toList, "bb".toList] 5 =
        ["dddddd".toList, "aaa bb".toList] ∧
      create_chunks_exactJoin ["dddddd".toList, "aaa".toList, "bb".toList] 5 =
        ["dddddd".toList, "aaa".toList, "bb".toList] ∧
      create_chunks ["dddddd".toList, "aaa".toList, "bb".toList] 5 ≠
        create_chunks_exactJoin ["dddddd".toList, "aaa".toList, "bb".toList] 5 := by
  refine ⟨by decide, by decide, by decide⟩

/-- A chunk group already flushed stays among the final groups. -/
theorem groups_mono (cs : Nat) :
    ∀ (l : List (List Char)) (st : List (List (List Char)) × List (List Char) × Nat)
      (g : List (List Char)), g ∈ st.1 →
      g ∈ finishGroups (l.foldl (groupStep cs) st)
  | [], st, g, hg => by
    unfold finishGroups
    by_cases hcur : st.2.1.isEmpty = true
    · simpa [hcur] using hg
    · simp only [List.foldl_nil, hcur, Bool.false_eq_true, if_false]
      exact List.mem_append_left _ hg
  | x :: l', st, g, hg => by
    simp only [List.foldl_cons]
    apply groups_mono cs l'
    obtain ⟨groups, cur, n⟩ := st
    rw [groupStep_eq]
    by_cases he : (strip x).isEmpty = true
    · simpa [he] using hg
    · simp only [he, Bool.false_eq_true, if_false]
      by_cases hc : (n + (strip x).length > cs && !cur.isEmpty) = true
      · simp only [hc, if_true]
        exact List.mem_append_left _ hg
      · simpa [hc] using hg

/-- Once the open chunk is a single sentence longer than the bound, with
running size at least that length, that sentence ends up as its own group. -/
theorem oversized_stays (cs : Nat) :
    ∀ (l : List (List Char)) (st : List (List (List Char)) × List (List Char) × Nat)
      (t : List Char), st.2.1 = [t] → t.length ≤ st.2.2 → cs < t.length →
      [t] ∈ finishGroups (l.foldl (groupStep cs) st)
  | [], st, t, hcur, _, _ => by
    simp [finishGroups, hcur]
  | x :: l', st, t, hcur, hsz, hlen => by
    obtain ⟨groups, cur, n⟩ := st
    dsimp only at hcur hsz
    subst hcur
    simp only [List.foldl_cons]
    rw [groupStep_eq]
    by_cases he : (strip x).isEmpty = true
    · simp only [he, if_true]
      exact oversized_stays cs l' (groups, [t], n) t rfl hsz hlen
    · have hx1 : 1 ≤ (strip x).length := by
        cases hsx : strip x with
        | nil => rw [hsx] at he; simp at he
        | cons a u => simp
      have hgt : n + (strip x).length > cs := by omega
      have hcond : (decide (n + (strip x).length > cs) &&
          !([t] : List (List Char)).isEmpty) = true := by
        simp [hgt]
      simp only [he, Bool.false_eq_true, if_false, hcond, if_true]
      apply groups_mono cs l'
      simp

/-- Any input sentence whose stripped form is longer than the bound becomes
its own singleton group. -/
theorem oversized_own (cs : Nat) :
    ∀ (l : List (List Char)) (st : List (List (List Char)) × List (List Char) × Nat)
      (s : List Char), s ∈ l → cs < (strip s).length →
      [strip s] ∈ finishGroups (l.foldl (groupStep cs) st)
  | x :: l', st, s, hs, hlen => by
    rcases List.mem_cons.1 hs with heq | hmem
    · subst heq
      obtain ⟨groups, cur, n⟩ := st
      simp only [List.foldl_cons]
      rw [groupStep_eq]
      have he : (strip s).isEmpty = false := by
        cases hsx : strip s with
        | nil => rw [hsx] at hlen; simp at hlen
        | cons a u => rfl
      simp only [he, Bool.false_eq_true, if_false]
      by_cases hnil : cur = []
      · subst hnil
        have hcond : (decide (n + (strip s).length > cs) &&
            !([] : List (List Char)).isEmpty) = false := by simp
        simp only [hcond, Bool.false_eq_true, if_false]
        exact oversized_stays cs l' (groups, [strip s], n + (strip s).length + 1)
          (strip s) rfl (by dsimp only; omega) hlen
      · have hF : cur.isEmpty = false := by
          cases cur
          · exact absurd rfl hnil
          · rfl
        have hgt : n + (strip s).length > cs := by omega
        have hcond : (decide (n + (strip s).length > cs) && !cur.isEmpty) = true := by
          simp [hgt, hF]
        simp only [hcond, if_true]
        exact oversized_stays cs l' (groups ++ [cur], [strip s], (strip s).length)
          (strip s) rfl (by dsimp only; omega) hlen
    · exact oversized_own cs l' (groupStep cs st x) s hmem hlen

/-- C3 (amended): any input sentence whose whitespace-stripped form is
longer than the maximum chunk size is emitted, after stripping, as its own
chunk — never truncated and never split across chunks.  (The claim's
character-for-character reading fails: the packer strips each sentence, so
surrounding whitespace is removed and the raw sentence may even be packed
with others when only the whitespace pushed it over the bound.) -/
theorem c3_amended_oversized_own_chunk
    (sentences : List (List Char)) (chunk_size : Nat) (s : List Char)
    (hs : s ∈ sentences) (hlen : chunk_size < (strip s).length) :
    [strip s] ∈ chunkGroups sentences chunk_size ∧
      strip s ∈ create_chunks sentences chunk_size := by
  have hgrp : [strip s] ∈ chunkGroups sentences chunk_size := by
    rw [chunkGroups_eq_finish]
    exact oversized_own chunk_size sentences ([], [], 0) s hs hlen
  refine ⟨hgrp, ?_⟩
  rw [create_chunks_eq_map_groups]
  have : joinSp [strip s] = strip s := rfl
  rw [← this]
  exact List.mem_map_of_mem joinSp hgrp

/-- Witness for C3 (amended): "aaaa" (length 4 > 3) is its own chunk of
`create_chunks ["aaaa"] 3`. -/
theorem c3_witness :
    [strip "aaaa".toList] ∈ chunkGroups ["aaaa".toList] 3 ∧
      strip "aaaa".toList ∈ create_chunks ["aaaa".toList] 3 :=
  c3_amended_oversized_own_chunk ["aaaa".toList] 3 "aaaa".toList
    (by decide) (by decide)

/-- C3 counterexample: the sentence "aaaa  " has length 6 > 5, yet with
bound 5 it is not emitted as its own chunk character-for-character — the
packer strips it to "aaaa" and then packs it together with "b". -/
theorem c3_counterexample :
    create_chunks ["xxxxxxx".toList, "aaaa  ".toList, "b".toList] 5 =
        ["xxxxxxx".toList, "aaaa b".toList] ∧
      5 < "aaaa  ".toList.length ∧
      "aaaa  ".toList ∉ create_chunks ["xxxxxxx".toList, "aaaa  ".toList, "b".toList] 5 := by
  refine ⟨by decide, by decide, by decide⟩

/-- Dropping a whitespace prefix is idempotent. -/
theorem dropWhile_sp_idem :
    ∀ (l : List Char),
      (l.dropWhile isPySpace).dropWhile isPySpace = l.dropWhile isPySpace
  | [] => rfl
  | c :: t => by
    by_cases hc : isPySpace c = true
    · rw [List.dropWhile_cons_of_pos hc]
      exact dropWhile_sp_idem t
    · simp only [Bool.not_eq_true] at hc
      rw [List.dropWhile_cons_of_neg (by simp [hc]),
        List.dropWhile_cons_of_neg (by simp [hc])]

/-- The head of a whitespace-trimmed list is not whitespace. -/
theorem head_of_dropWhile_sp (l : List Char) (c : Char) (t : List Char)
    (h : l.dropWhile isPySpace = c :: t) : isPySpace c = false := by
  have hm := List.head?_dropWhile_not isPySpace l
  rw [h] at hm
  simpa using hm

/-- Stripping is idempotent. -/
theorem strip_strip (l : List Char) : strip (strip l) = strip l := by
  set a := l.dropWhile isPySpace with ha
  set b := a.reverse.dropWhile isPySpace with hb
  have hsl : strip l = b.reverse := rfl
  have stepA : (b.reverse).dropWhile isPySpace = b.reverse := by
    cases hbr : b.reverse with
    | nil => rfl
    | cons c s =>
      have haeq : a = b.reverse ++ (a.reverse.takeWhile isPySpace).reverse := by
        have h1 : a.reverse.takeWhile isPySpace ++ b = a.reverse :=
          List.takeWhile_append_dropWhile isPySpace a.reverse
        have h2 := congrArg List.reverse h1
        simpa [List.reverse_append] using h2.symm
      obtain ⟨w, hw⟩ : ∃ w, a = b.reverse ++ w := ⟨_, haeq⟩
      have hc : isPySpace c = false := by
        apply head_of_dropWhile_sp l c (s ++ w)
        rw [← ha, hw, hbr]
        rfl
      rw [List.dropWhile_cons_of_neg (by simp [hc])]
  rw [hsl]
  show (((b.reverse).dropWhile isPySpace).reverse.dropWhile isPySpace).reverse = b.reverse
  rw [stepA, List.reverse_reverse, hb, dropWhile_sp_idem]

/-- Mapping `strip` over a list of already-stripped strings is the identity. -/
theorem map_strip_self :
    ∀ (L : List (List Char)), (∀ s ∈ L, strip s = s) → L.map strip = L
  | [], _ => rfl
  | x :: t, h => by
    rw [List.map_cons, h x (List.mem_cons_self x t),
      map_strip_self t (fun s hs => h s (List.mem_cons_of_mem x hs))]

/-- Every sentence emitted by the pair loop is a `strip` image. -/
theorem reconLoop_sents_stripped (abbrs : List (List Char)) :
    ∀ (ps sents : List (List Char)) (cur : List Char),
      (∀ s ∈ sents, strip s = s) →
      ∀ s ∈ (reconLoop abbrs ps sents cur).1, strip s = s
  | [], _, _, h => h
  | [_], _, _, h => h
  | x :: y :: ps', sents, cur, h => by
    simp only [reconLoop]
    by_cases hc : is_abbreviation_end (strip x ++ y) abbrs = true
    · simp only [hc, if_true]
      exact reconLoop_sents_stripped abbrs ps' sents (cur ++ strip x ++ y ++ [' ']) h
    · simp only [Bool.not_eq_true] at hc
      simp only [hc, Bool.false_eq_true, if_false]
      apply reconLoop_sents_stripped abbrs ps' _ []
      intro s hs
      rcases List.mem_append.1 hs with hs' | hs'
      · exact h s hs'
      · have : s = strip (cur ++ strip x ++ y) := by simpa using hs'
        rw [this, strip_strip]

/-- Every sentence produced by the Reconstructor is already stripped. -/
theorem reconstruct_elements_stripped (ps abbrs : List (List Char)) :
    ∀ s ∈ reconstruct_sentences ps abbrs, strip s = s := by
  intro s hs
  unfold reconstruct_sentences at hs
  by_cases hcond : (!(reconLoop abbrs ps [] []).2.isEmpty ||
      (ps.length % 2 == 1 && !(strip (ps.getLastD [])).isEmpty)) = true
  · rw [if_pos hcond] at hs
    rcases List.mem_append.1 hs with hs' | hs'
    · exact reconLoop_sents_stripped abbrs ps [] [] (by intro s h; simp at h) s hs'
    · have : s = strip ((reconLoop abbrs ps [] []).2 ++ ps.getLastD []) := by
        simpa using hs'
      rw [this, strip_strip]
  · rw [if_neg hcond] at hs
    exact reconLoop_sents_stripped abbrs ps [] [] (by intro s h; simp at h) s hs

/-- Folding concatenation with an accumulator. -/
theorem foldr_append_acc {α : Type} :
    ∀ (xs : List (List α)) (acc : List α),
      xs.foldr (· ++ ·) acc = concatAll xs ++ acc
  | [], _ => rfl
  | x :: t, acc => by
    show x ++ t.foldr (· ++ ·) acc = (x ++ concatAll t) ++ acc
    rw [foldr_append_acc t acc, List.append_assoc]

/-- Concatenation distributes over list append. -/
theorem concatAll_append {α : Type} (xs ys : List (List α)) :
    concatAll (xs ++ ys) = concatAll xs ++ concatAll ys := by
  rw [show concatAll (xs ++ ys) = (xs ++ ys).foldr (· ++ ·) [] from rfl,
    List.foldr_append, foldr_append_acc]
  rfl

/-- Coverage of the packer fold: flattening the final groups yields the
already-flushed sentences, then the open chunk, then the non-blank stripped
remaining input sentences, in order. -/
theorem coverage_fold (cs : Nat) :
    ∀ (l : List (List Char)) (st : List (List (List Char)) × List (List Char) × Nat),
      concatAll (finishGroups (l.foldl (groupStep cs) st)) =
        concatAll st.1 ++ st.2.1 ++ (l.map strip).filter (fun s => !s.isEmpty)
  | [], st => by
    unfold finishGroups
    by_cases hcur : st.2.1.isEmpty = true
    · have hnil : st.2.1 = [] := List.isEmpty_iff.1 hcur
      simp [hnil, hcur]
    · simp only [List.foldl_nil, hcur, Bool.false_eq_true, if_false, List.map_nil,
        List.filter_nil, List.append_nil]
      rw [concatAll_append]
      simp [concatAll]
  | x :: l', st => by
    obtain ⟨groups, cur, n⟩ := st
    simp only [List.foldl_cons, List.map_cons]
    rw [groupStep_eq]
    by_cases he : (strip x).isEmpty = true
    · simp only [he, if_true]
      rw [coverage_fold cs l' (groups, cur, n)]
      simp [List.filter_cons, he]
    · simp only [he, Bool.false_eq_true, if_false]
      by_cases hc : (n + (strip x).length > cs && !cur.isEmpty) = true
      · simp only [hc, if_true]
        rw [coverage_fold cs l' (groups ++ [cur], [strip x], (strip x).length)]
        dsimp only
        rw [concatAll_append]
        simp [concatAll, List.filter_cons, he, List.append_assoc]
      · simp only [hc, Bool.false_eq_true, if_false]
        rw [coverage_fold cs l' (groups, cur ++ [strip x], n + (strip x).length + 1)]
        dsimp only
        simp [List.filter_cons, he, List.append_assoc]

/-- C4 (amended): the packer's chunk groups, concatenated in order, are
exactly the Reconstructor's sentence list with blank sentences removed —
recovering each chunk's sentences from the grouping itself; splitting the
joined chunk string on the space character would not recover sentences that
contain internal spaces. -/
theorem c4_amended_coverage (ps abbrs : List (List Char)) (cs : Nat) :
    concatAll (chunkGroups (reconstruct_sentences ps abbrs) cs) =
      (reconstruct_sentences ps abbrs).filter (fun s => !s.isEmpty) := by
  rw [chunkGroups_eq_finish, coverage_fold]
  rw [map_strip_self _ (reconstruct_elements_stripped ps abbrs)]
  simp [concatAll]

/-- C4 counterexample: on the Reconstructor output `["", "a b."]` (from the
alternating input `["", "", "a b", ".", ""]` with an empty abbreviation
set), splitting each chunk back on its join separator yields
`["a", "b."]` — the sentence "a b." is broken at its internal space and the
blank sentence is lost — which differs from the Reconstructor's list. -/
theorem c4_counterexample :
    reconstruct_sentences ["".toList, "".toList, "a b".toList, ".".toList, "".toList] [] =
        ["".toList, "a b.".toList] ∧
      concatAll
        ((create_chunks
            (reconstruct_sentences
              ["".toList, "".toList, "a b".toList, ".".toList, "".toList] [])
            500).map splitOnSpace) =
        ["a".toList, "b.".toList] ∧
      concatAll
        ((create_chunks
            (reconstruct_sentences
              ["".toList, "".toList, "a b".toList, ".".toList, "".toList] [])
            500).map splitOnSpace) ≠
        reconstruct_sentences ["".toList, "".toList, "a b".toList, ".".toList, "".toList] [] := by
  refine ⟨by decide, by decide, by decide⟩

/-- The splitter scanner always returns an odd number of elements. -/
theorem splitGo_length_odd :
    ∀ (l seg run : List Char), (splitGo l seg run).length % 2 = 1
  | [], seg, run => by
    unfold splitGo
    by_cases hr : run.isEmpty = true <;> simp [hr]
  | c :: rest, seg, run => by
    unfold splitGo
    by_cases hp : punctChar c = true
    · simp only [hp, if_true]
      exact splitGo_length_odd rest seg (c :: run)
    · simp only [hp, Bool.false_eq_true, if_false]
      by_cases hr : run.isEmpty = true
      · simp only [hr, if_true]
        exact splitGo_length_odd rest (c :: seg) []
      · simp only [hr, Bool.false_eq_true, if_false]
        by_cases hl : lookaheadOk (c :: rest) = true
        · simp only [hl, if_true, List.length_cons]
          have := splitGo_length_odd rest [c] []
          omega
        · simp only [hl, Bool.false_eq_true, if_false]
          exact splitGo_length_odd rest (c :: (run ++ seg)) []

/-- The splitter scanner loses no characters: concatenating its output
recovers the pending segment, the pending run and the remaining input. -/
theorem splitGo_concat :
    ∀ (l seg run : List Char),
      concatAll (splitGo l seg run) = seg.reverse ++ run.reverse ++ l
  | [], seg, run => by
    unfold splitGo
    by_cases hr : run.isEmpty = true
    · have hnil : run = [] := List.isEmpty_iff.1 hr
      subst hnil
      simp [concatAll]
    · simp [hr, concatAll]
  | c :: rest, seg, run => by
    unfold splitGo
    by_cases hp : punctChar c = true
    · simp only [hp, if_true]
      rw [splitGo_concat rest seg (c :: run)]
      simp
    · simp only [hp, Bool.false_eq_true, if_false]
      by_cases hr : run.isEmpty = true
      · have hnil : run = [] := List.isEmpty_iff.1 hr
        subst hnil
        simp only [hr, if_true]
        rw [splitGo_concat rest (c :: seg) []]
        simp
      · simp only [hr, Bool.false_eq_true, if_false]
        by_cases hl : lookaheadOk (c :: rest) = true
        · simp only [hl, if_true]
          show seg.reverse ++ (run.reverse ++ concatAll (splitGo rest [c] [])) = _
          rw [splitGo_concat rest [c] []]
          simp
        · simp only [hl, Bool.false_eq_true, if_false]
          rw [splitGo_concat rest (c :: (run ++ seg)) []]
          simp

/-- Every odd-position element of the splitter scanner's output is a
nonempty run of punctuation characters. -/
theorem splitGo_odd_punct :
    ∀ (l seg run : List Char), run.all punctChar = true →
      ∀ i, i % 2 = 1 → i < (splitGo l seg run).length →
        (splitGo l seg run).getD i [] ≠ [] ∧
          ((splitGo l seg run).getD i []).all punctChar = true
  | [], seg, run, hrun => by
    unfold splitGo
    by_cases hr : run.isEmpty = true
    · simp only [hr, if_true]
      intro i hi hlen
      simp only [List.length_singleton] at hlen
      omega
    · simp only [hr, Bool.false_eq_true, if_false]
      intro i hi hlen
      have hi1 : i = 1 := by
        simp only [List.length_cons, List.length_nil] at hlen
        omega
      subst hi1
      simp only [List.getD_cons_succ, List.getD_cons_zero]
      constructor
      · intro hnil
        rw [List.reverse_eq_nil_iff] at hnil
        rw [hnil] at hr
        simp at hr
      · simpa using hrun
  | c :: rest, seg, run, hrun => by
    unfold splitGo
    by_cases hp : punctChar c = true
    · simp only [hp, if_true]
      exact splitGo_odd_punct rest seg (c :: run) (by simp [hp, hrun])
    · simp only [hp, Bool.false_eq_true, if_false]
      by_cases hr : run.isEmpty = true
      · simp only [hr, if_true]
        exact splitGo_odd_punct rest (c :: seg) [] rfl
      · simp only [hr, Bool.false_eq_true, if_false]
        by_cases hl : lookaheadOk (c :: rest) = true
        · simp only [hl, if_true]
          intro i hi hlen
          cases i with
          | zero => omega
          | succ i' =>
            cases i' with
            | zero =>
              simp only [List.getD_cons_succ, List.getD_cons_zero]
              constructor
              · intro hnil
                rw [List.reverse_eq_nil_iff] at hnil
                rw [hnil] at hr
                simp at hr
              · simpa using hrun
            | succ j =>
              simp only [List.getD_cons_succ]
              apply splitGo_odd_punct rest [c] [] rfl j
              · omega
              · simp only [List.length_cons] at hlen
                omega
        · simp only [hl, Bool.false_eq_true, if_false]
          exact splitGo_odd_punct rest (c :: (run ++ seg)) [] rfl

/-- A single-element scanner result is the whole pending text. -/
theorem splitGo_length_one (l seg run : List Char)
    (h : (splitGo l seg run).length = 1) :
    splitGo l seg run = [seg.reverse ++ run.reverse ++ l] := by
  obtain ⟨x, hx⟩ := List.length_eq_one.1 h
  have hc := splitGo_concat l seg run
  rw [hx] at hc
  rw [show concatAll [x] = x from by simp [concatAll]] at hc
  rw [hx, hc]

/-- When the remaining input ends in a punctuation character (or is empty
with a pending punctuation run), the scanner's final element is the empty
string. -/
theorem splitGo_last_empty :
    ∀ (l seg run : List Char),
      ((l = [] ∧ run ≠ []) ∨ (∃ ch, l.getLast? = some ch ∧ punctChar ch = true)) →
      (splitGo l seg run).getLast? = some []
  | [], seg, run, h => by
    rcases h with ⟨_, hrun⟩ | ⟨ch, hch, _⟩
    · unfold splitGo
      have hr : run.isEmpty = false := by
        cases run
        · exact absurd rfl hrun
        · rfl
      simp [hr]
    · simp at hch
  | c :: rest, seg, run, h => by
    have hch : ∃ ch, (c :: rest).getLast? = some ch ∧ punctChar ch = true := by
      rcases h with ⟨hnil, _⟩ | h'
      · exact absurd hnil (by simp)
      · exact h'
    obtain ⟨ch, hlast, hpch⟩ := hch
    unfold splitGo
    cases rest with
    | nil =>
      have hcc : ch = c := by
        have := hlast
        simp only [List.getLast?_singleton, Option.some_inj] at this
        exact this.symm
      subst hcc
      simp only [hpch, if_true]
      exact splitGo_last_empty [] seg (ch :: run) (Or.inl ⟨rfl, by simp⟩)
    | cons r rs =>
      have hlast' : (r :: rs).getLast? = some ch := by
        rw [← List.getLast?_cons_cons (a := c)]
        exact hlast
      by_cases hp : punctChar c = true
      · simp only [hp, if_true]
        exact splitGo_last_empty (r :: rs) seg (c :: run) (Or.inr ⟨ch, hlast', hpch⟩)
      · simp only [hp, Bool.false_eq_true, if_false]
        by_cases hr : run.isEmpty = true
        · simp only [hr, if_true]
          exact splitGo_last_empty (r :: rs) (c :: seg) [] (Or.inr ⟨ch, hlast', hpch⟩)
        · simp only [hr, Bool.false_eq_true, if_false]
          by_cases hl : lookaheadOk (c :: r :: rs) = true
          · simp only [hl, if_true]
            have hrec := splitGo_last_empty (r :: rs) [c] [] (Or.inr ⟨ch, hlast', hpch⟩)
            have hne : splitGo (r :: rs) [c] [] ≠ [] := by
              intro hnil
              have hodd := splitGo_length_odd (r :: rs) [c] []
              rw [hnil] at hodd
              simp at hodd
            cases hrc : splitGo (r :: rs) [c] [] with
            | nil => exact absurd hrc hne
            | cons z zs =>
              rw [hrc] at hrec
              rw [List.getLast?_cons_cons, List.getLast?_cons_cons]
              exact hrec
          · simp only [hl, Bool.false_eq_true, if_false]
            exact splitGo_last_empty (r :: rs) (c :: (run ++ seg)) []
              (Or.inr ⟨ch, hlast', hpch⟩)

/-- C6: structural invariants of the Splitter's output — empty input gives
the single empty element; the length is always odd (so the sequence ends
with a trailing, possibly empty, leftover text element); odd positions hold
nonempty punctuation runs; the elements concatenate back to the input; a
single-element result is the whole input (no matching boundary); and input
ending in a punctuation character (a boundary at the very end) yields a
trailing empty string. -/
theorem c6_splitter_invariants (text : List Char) :
    (text = [] → split_into_potential_sentences text = [[]]) ∧
    (split_into_potential_sentences text).length % 2 = 1 ∧
    (∀ i, i % 2 = 1 → i < (split_into_potential_sentences text).length →
      (split_into_potential_sentences text).getD i [] ≠ [] ∧
        ((split_into_potential_sentences text).getD i []).all punctChar = true) ∧
    concatAll (split_into_potential_sentences text) = text ∧
    ((split_into_potential_sentences text).length = 1 →
      split_into_potential_sentences text = [text]) ∧
    (∀ ch, text.getLast? = some ch → punctChar ch = true →
      (split_into_potential_sentences text).getLast? = some []) := by
  refine ⟨?_, ?_, ?_, ?_, ?_, ?_⟩
  · intro h
    subst h
    rfl
  · exact splitGo_length_odd text [] []
  · exact fun i hi hlen => splitGo_odd_punct text [] [] rfl i hi hlen
  · simpa using splitGo_concat text [] []
  · intro h
    simpa using splitGo_length_one text [] [] h
  · intro ch hlast hp
    exact splitGo_last_empty text [] [] (Or.inr ⟨ch, hlast, hp⟩)

/-- Witness for C6 at the concrete input "a.": position 1 holds the
nonempty punctuation run and the final element is the empty string. -/
theorem c6_witness :
    ((split_into_potential_sentences "a.".toList).getD 1 [] ≠ [] ∧
      ((split_into_potential_sentences "a.".toList).getD 1 []).all punctChar = true) ∧
    (split_into_potential_sentences "a.".toList).getLast? = some [] :=
  ⟨(c6_splitter_invariants "a.".toList).2.2.1 1 (by decide) (by decide),
    (c6_splitter_invariants "a.".toList).2.2.2.2.2 '.' (by decide) (by decide)⟩

-- Sanity checks mirroring the repository's own test fixtures.
example :
    split_into_potential_sentences "Hello Dr. Smith! How are you? I am fine.".toList =
      ["Hello Dr".toList, ".".toList, " Smith".toList, "!".toList, " How are you".toList,
        "?".toList, " I am fine".toList, ".".toList, "".toList] := by decide

example :
    split_into_potential_sentences "No punctuation here".toList =
      ["No punctuation here".toList] := by decide

example :
    split_into_potential_sentences "End with emphasis!".toList =
      ["End with emphasis".toList, "!".toList, "".toList] := by decide

example :
    split_into_potential_sentences "What about... ellipses? Yes!".toList =
      ["What about... ellipses".toList, "?".toList, " Yes".toList, "!".toList,
        "".toList] := by decide

example : split_into_potential_sentences "".toList = ["".toList] := by decide

example :
    reconstruct_sentences
      ["Hello".toList, "!".toList, " How are you".toList, "?".toList, " I am fine".toList,
        ".".toList, "".toList]
      get_common_abbreviations =
      ["Hello!".toList, "How are you?".toList, "I am fine.".toList] := by decide

example :
    reconstruct_sentences
      ["This is Mr".toList, ".".toList, "Smith".toList, ".".toList, " He is Dr".toList,
        ".".toList, "Smith".toList, ".".toList, "".toList]
      get_common_abbreviations =
      ["This is Mr. Smith.".toList, "He is Dr. Smith.".toList] := by decide

example :
    reconstruct_sentences ["".toList] get_common_abbreviations = [] := by decide

example :
    create_chunks
      ["This is sentence one.".toList, "This is sentence two.".toList,
        "This is sentence three.".toList] 50 =
      ["This is sentence one. This is sentence two.".toList,
        "This is sentence three.".toList] := by decide

example :
    create_chunks
      ["These are very good sentences.".toList, "This is another good sentence.".toList] 30 =
      ["These are very good sentences.".toList,
        "This is another good sentence.".toList] := by decide

example :
    create_chunks ["".toList, " ".toList, "This is a sentence.".toList, "".toList,
      "Another sentence.".toList] 30 =
      ["This is a sentence.".toList, "Another sentence.".toList] := by decide

example : normalize_whitespace "Hello   World".toList = "Hello World".toList := by decide

example :
    normalize_whitespace "   Multiple leading and trailing spaces   ".toList =
      " Multiple leading and trailing spaces ".toList := by decide

end RagChunker
